import Mathlib

/-!
Verification of the MPC control-loop front end (`src/main.cpp`) of the
SDC-MPC-Project repository.

The file shallowly embeds the pure computations of `main.cpp`:
`deg2rad`, `hasData`, `polyeval`, the assert-guarded entry of `polyfit`,
the global-to-body-frame waypoint transform, the initial-state assembly
(cte / epsi), and the output-boundary command packaging.  The numeric
QR least-squares core of `polyfit` (Eigen `householderQr().solve`) is
characterised relationally as the least-squares minimiser over the
Vandermonde design matrix the code builds.  The horizon optimizer
(`MPC.h` / `MPC.cpp`) is external to the analysed sources; where a
property needs it, it is modelled from the specification and marked so.

Machine `double` values are modelled as real numbers; exact-arithmetic
round-trip properties of the fit are stated over the rationals.
-/

/- Section: deg2rad / rad2deg (main.cpp lines 17-18) -/

noncomputable def deg2rad (x : ℝ) : ℝ := x * Real.pi / 180

noncomputable def rad2deg (x : ℝ) : ℝ := x * 180 / Real.pi

/- Section: polyeval (main.cpp lines 36-42)

The C++ loop `for i in [0, n): result += coeffs[i] * pow(x, i)` starting
from `result = 0`, over a coefficient vector. -/

def polyeval {R : Type} [CommRing R] (coeffs : List R) (x : R) : R :=
  (List.range coeffs.length).foldl (fun result i => result + coeffs.getD i 0 * x ^ i) 0

/- Section: The waypoint transform (main.cpp lines 117-122)

`dx = ptsx[i] - px; dy = ptsy[i] - py;`
`ptsx_car[i] =  cos(psi)*dx + sin(psi)*dy;`
`ptsy_car[i] = -sin(psi)*dx + cos(psi)*dy;` -/

noncomputable def transformWaypoint (px py psi gx gy : ℝ) : ℝ × ℝ :=
  let dx_global := gx - px
  let dy_global := gy - py
  (Real.cos psi * dx_global + Real.sin psi * dy_global,
   -Real.sin psi * dx_global + Real.cos psi * dy_global)

/- Section: Initial state assembly (main.cpp lines 132-142)

`cte = polyeval(coeffs, 0.0) - 0.0; epsi = 0.0 - atan(coeffs[1]);`
`state << 0, 0, 0, v, cte, epsi;` -/

noncomputable def cte (coeffs : List ℝ) : ℝ := polyeval coeffs 0 - 0

noncomputable def epsi (coeffs : List ℝ) : ℝ := 0 - Real.arctan (coeffs.getD 1 0)

noncomputable def initialState (coeffs : List ℝ) (v : ℝ) : Fin 6 → ℝ :=
  ![0, 0, 0, v, cte coeffs, epsi coeffs]

/- Section: Output boundary (main.cpp lines 147-155)

`steer_value = -solutions[0]; throttle_value = solutions[1];`
`msgJson["steering_angle"] = steer_value; msgJson["throttle"] = throttle_value;`
Note that the code does NOT divide `steer_value` by `deg2rad(25)`,
although the comment on lines 152-153 says to. -/

structure Command where
  steering_angle : ℝ
  throttle : ℝ

noncomputable def mkCommand (solutions : List ℝ) : Command :=
  { steering_angle := -(solutions.getD 0 0), throttle := solutions.getD 1 0 }

/- Section: polyfit entry (main.cpp lines 47-66)

`assert(xvals.size() == yvals.size());`
`assert(order >= 1 && order <= xvals.size() - 1);`
A failed C `assert` calls `abort()`: the process terminates and nothing
further in the cycle runs.  `PolyfitOutcome.aborted` models that abort;
the numeric QR solve itself is abstracted as a parameter `lsSolve`. -/

def polyfitAssert (xn yn : ℕ) (order : ℤ) : Bool :=
  (xn == yn) && (decide (1 ≤ order)) && (decide (order ≤ (xn : ℤ) - 1))

inductive PolyfitOutcome where
  | aborted : PolyfitOutcome
  | returned : List ℝ → PolyfitOutcome

noncomputable def polyfitRun (lsSolve : List ℝ → List ℝ → ℤ → List ℝ)
    (xvals yvals : List ℝ) (order : ℤ) : PolyfitOutcome :=
  if polyfitAssert xvals.length yvals.length order then
    .returned (lsSolve xvals yvals order)
  else
    .aborted

/- Section: The telemetry branch of onMessage (main.cpp lines 98-155)

One control cycle: transform the waypoints to the car frame, fit a
degree-3 polynomial, assemble the initial state, hand it to the MPC
solver, and package the outgoing command.  The optimizer call
(`mpc.Solve`, external to the analysed sources) is the parameter
`mpcSolve`; `none` models a process abort (failed assert inside
`polyfit`), in which case no message of any kind is sent. -/

structure Telemetry where
  ptsx : List ℝ
  ptsy : List ℝ
  px : ℝ
  py : ℝ
  psi : ℝ
  speed : ℝ

noncomputable def ptsxCar (t : Telemetry) : List ℝ :=
  (List.range t.ptsx.length).map
    (fun i => (transformWaypoint t.px t.py t.psi (t.ptsx.getD i 0) (t.ptsy.getD i 0)).1)

noncomputable def ptsyCar (t : Telemetry) : List ℝ :=
  (List.range t.ptsy.length).map
    (fun i => (transformWaypoint t.px t.py t.psi (t.ptsx.getD i 0) (t.ptsy.getD i 0)).2)

noncomputable def processTelemetry (lsSolve : List ℝ → List ℝ → ℤ → List ℝ)
    (mpcSolve : (Fin 6 → ℝ) → List ℝ → List ℝ) (t : Telemetry) : Option Command :=
  match polyfitRun lsSolve (ptsxCar t) (ptsyCar t) 3 with
  | .aborted => none
  | .returned coeffs =>
      some (mkCommand (mpcSolve (initialState coeffs t.speed) coeffs))

/- Section: hasData (main.cpp lines 23-33)

`auto found_null = s.find("null");`
`auto b1 = s.find_first_of("[");  auto b2 = s.rfind("}]");`
`if (found_null != npos) return ""; else if (b1 != npos && b2 != npos) return s.substr(b1, b2 - b1 + 2); return "";`
Strings are modelled as lists of characters.  `b2 - b1 + 2` is `size_t`
(64-bit unsigned) arithmetic, hence the `% 2 ^ 64` below; `substr`
truncates its count to the remaining length, which the `min` renders. -/

abbrev Str := List Char

def substrAt (pat s : Str) (i : ℕ) : Bool := pat.isPrefixOf (s.drop i)

def findSubIdx (pat s : Str) : Option ℕ :=
  (List.range (s.length + 1)).find? (fun i => substrAt pat s i)

def rfindSubIdx (pat s : Str) : Option ℕ :=
  ((List.range (s.length + 1)).filter (fun i => substrAt pat s i)).getLast?

def cppSubstr (s : Str) (pos count : ℕ) : Str :=
  (s.drop pos).take (min count (s.length - pos))

def nullPat : Str := ['n', 'u', 'l', 'l']

def closePat : Str := [Char.ofNat 125, ']']

def hasData (s : Str) : Str :=
  match findSubIdx nullPat s with
  | some _ => []
  | none =>
      match s.findIdx? (fun c => c == '['), rfindSubIdx closePat s with
      | some b1, some b2 => cppSubstr s b1 (((b2 : ℤ) - (b1 : ℤ) + 2) % (2 ^ 64)).toNat
      | _, _ => []

/-- The behaviour claim C9 attributes to `hasData`, rendered literally:
an input containing `"null"` yields the empty string; otherwise, when a
first `'['` (index `b1`) and a last closing pair (index `b2`) are both
present, the result is the substring from the first `'['` through that
closing pair inclusive, i.e. indices `[b1, b2 + 2)`. -/
def claimedHasData (s : Str) : Str :=
  match findSubIdx nullPat s with
  | some _ => []
  | none =>
      match s.findIdx? (fun c => c == '['), rfindSubIdx closePat s with
      | some b1, some b2 => (s.drop b1).take (b2 + 2 - b1)
      | _, _ => []

/- Section: the heading update of the horizon optimizer's dynamics -/

/-- Modelled from the spec: `MPC.h` / `MPC.cpp` (the HorizonOptimizer) are
not among the analysed sources.  Spec §4.4 fixes the heading update of
the kinematic bicycle dynamics as `ψ_{t+1} = ψ_t + (v_t/Lf)·δ_t·dt`,
with the steering angle `δ_t` entering positively — no sign inversion
inside the dynamics model. -/
noncomputable def psiNext (ψ v δ dtStep Lf : ℝ) : ℝ := ψ + v / Lf * δ * dtStep

/- Section: the least-squares semantics of polyfit (main.cpp lines 51-65)

The code builds the Vandermonde design matrix column by column
(`A(i,0) = 1.0; A(j,i+1) = A(j,i) * xvals(j)`) and computes the
least-squares solution of `A c = yvals` by Householder QR
(`A.householderQr().solve(yvals)`).  In exact arithmetic that solve
returns a minimiser of the squared residual; claim C7 is stated over ℚ
(exact rational arithmetic), characterising the solve relationally as
`IsLeastSquares`. -/

def designRow (xj : ℚ) : ℕ → ℚ
  | 0 => 1
  | i + 1 => designRow xj i * xj

def designMatrix {m : ℕ} (xs : Fin m → ℚ) (order : ℕ) :
    Matrix (Fin m) (Fin (order + 1)) ℚ :=
  Matrix.of fun j i => designRow (xs j) (i : ℕ)

def sqError {m n : ℕ} (A : Matrix (Fin m) (Fin n) ℚ) (y : Fin m → ℚ)
    (c : Fin n → ℚ) : ℚ :=
  ∑ j, (∑ i, A j i * c i - y j) ^ 2

def IsLeastSquares {m n : ℕ} (A : Matrix (Fin m) (Fin n) ℚ) (y : Fin m → ℚ)
    (c : Fin n → ℚ) : Prop :=
  ∀ c', sqError A y c ≤ sqError A y c'

/- Section: helper lemmas and theorems -/

/- Helper: a left fold of successive additions over `List.range` is a
`Finset.range` sum. -/

lemma foldl_range_add {R : Type} [AddCommMonoid R] (f : ℕ → R) :
    ∀ (n : ℕ) (a : R),
      (List.range n).foldl (fun acc i => acc + f i) a = a + ∑ i in Finset.range n, f i := by
  intro n
  induction n with
  | zero => intro a; simp
  | succ n ih =>
      intro a
      rw [List.range_succ, List.foldl_append, ih a, Finset.sum_range_succ]
      simp [add_assoc]

lemma polyeval_eq_sum {R : Type} [CommRing R] (coeffs : List R) (x : R) :
    polyeval coeffs x = ∑ i in Finset.range coeffs.length, coeffs.getD i 0 * x ^ i := by
  unfold polyeval
  rw [foldl_range_add (fun i => coeffs.getD i 0 * x ^ i) coeffs.length 0, zero_add]


/-- C8: for every coefficient vector `c` of length `n` and every real `x`,
`polyeval` returns exactly `∑ i in [0, n), c_i · x^i`. -/
theorem polyeval_sum_formula (coeffs : List ℝ) (x : ℝ) :
    polyeval coeffs x = ∑ i in Finset.range coeffs.length, coeffs.getD i 0 * x ^ i :=
  polyeval_eq_sum coeffs x

/-- C2: for every pose `(px, py, heading)` and every global waypoint
`(gx, gy)`, the produced local-frame waypoint is exactly
`(cos ψ · (gx − px) + sin ψ · (gy − py), −sin ψ · (gx − px) + cos ψ · (gy − py))`,
with the exact trigonometric rotation and no small-angle shortcut. -/
theorem waypoint_transform_exact (px py heading gx gy : ℝ) :
    transformWaypoint px py heading gx gy =
      (Real.cos heading * (gx - px) + Real.sin heading * (gy - py),
       -Real.sin heading * (gx - px) + Real.cos heading * (gy - py)) := rfl

/-- C10: the waypoint transform is an isometry: the local-frame waypoint is
as far from the origin as the global waypoint is from the vehicle,
exactly over the reals. -/
theorem waypoint_transform_isometry (px py heading gx gy : ℝ) :
    (transformWaypoint px py heading gx gy).1 ^ 2 +
      (transformWaypoint px py heading gx gy).2 ^ 2 =
      (gx - px) ^ 2 + (gy - py) ^ 2 := by
  have h := Real.sin_sq_add_cos_sq heading
  simp only [transformWaypoint]
  linear_combination ((gx - px) ^ 2 + (gy - py) ^ 2) * h

/-- C1: for every coefficient vector and speed, the state vector assembled
for the optimizer carries `cte = polyeval(coeffs, 0)` in component 4 and
`epsi = 0 − arctan(coeffs[1])` in component 5. -/
theorem initial_state_errors (coeffs : List ℝ) (v : ℝ) :
    initialState coeffs v 4 = polyeval coeffs 0 ∧
    initialState coeffs v 5 = 0 - Real.arctan (coeffs.getD 1 0) := by
  constructor
  · show cte coeffs = polyeval coeffs 0
    simp [cte]
  · show epsi coeffs = 0 - Real.arctan (coeffs.getD 1 0)
    rfl

/-- C6: the platform sign inversion is applied once at the output boundary —
the transmitted steering command is the negation of the optimizer's first
steering value — while the (spec-modelled) dynamics heading update applies
the steering angle positively, with no inversion inside the model. -/
theorem steering_negated_at_boundary_only (solutions : List ℝ)
    (ψ v δ dtStep Lf : ℝ) :
    (mkCommand solutions).steering_angle = -(solutions.getD 0 0) ∧
    psiNext ψ v δ dtStep Lf = ψ + v / Lf * δ * dtStep :=
  ⟨rfl, rfl⟩

/-- C3 (refuting evaluation): when the optimizer's first steering value is
`deg2rad 25` (the steering limit δ_max itself), the transmitted
`steering_angle` is the raw `-(deg2rad 25) ≈ -0.436` and not the
normalized `-(deg2rad 25) / deg2rad 25 = -1` that the claim (and the
code's own comment on lines 152-153) prescribes. -/
theorem steering_sent_unnormalized :
    (mkCommand [deg2rad 25, 0]).steering_angle = -(deg2rad 25) ∧
    (mkCommand [deg2rad 25, 0]).steering_angle ≠ -(deg2rad 25) / deg2rad 25 := by
  have hpos : 0 < deg2rad 25 := by
    unfold deg2rad
    positivity
  have h1 : (mkCommand [deg2rad 25, 0]).steering_angle = -(deg2rad 25) := rfl
  refine ⟨h1, ?_⟩
  intro hEq
  rw [h1, neg_div, div_self (ne_of_gt hpos), neg_inj] at hEq
  unfold deg2rad at hEq
  have hfour := Real.pi_le_four
  linarith

/-- C4 (refuting evaluation): a telemetry record with only two waypoints
does not take a recovering InputError path — the degree-3 polyfit assert
`order <= size - 1` fails, the process aborts (modelled by `none`), and
no command, neutral or otherwise, is emitted. -/
theorem two_waypoints_aborts :
    processTelemetry (fun _ _ _ => []) (fun _ _ => [])
      ⟨[0, 1], [0, 1], 0, 0, 0, 0⟩ = none := by
  simp [processTelemetry, polyfitRun, polyfitAssert, ptsxCar, ptsyCar]

/-- C4 (amended): for every telemetry record with fewer waypoints than
degree + 1 = 4, the polyfit assertion fails and the process aborts:
no command is emitted and the optimizer is never invoked. -/
theorem insufficient_waypoints_no_command
    (lsSolve : List ℝ → List ℝ → ℤ → List ℝ)
    (mpcSolve : (Fin 6 → ℝ) → List ℝ → List ℝ) (t : Telemetry)
    (h : t.ptsx.length < 4) :
    processTelemetry lsSolve mpcSolve t = none := by
  unfold processTelemetry polyfitRun
  have hlen : (ptsxCar t).length = t.ptsx.length := by simp [ptsxCar]
  have h3 : ¬ ((3 : ℤ) ≤ ((ptsxCar t).length : ℤ) - 1) := by
    rw [hlen]; omega
  have hfalse : polyfitAssert (ptsxCar t).length (ptsyCar t).length 3 = false := by
    simp [polyfitAssert, h3]
  rw [hfalse]
  simp

/-- C4 witness: a concrete three-waypoint record (still below degree + 1)
aborts without producing any command. -/
theorem insufficient_waypoints_no_command_witness :
    processTelemetry (fun _ _ _ => []) (fun _ _ => [])
      ⟨[0, 1, 2], [0, 1, 2], 0, 0, 0, 0⟩ = none :=
  insufficient_waypoints_no_command _ _ _ (by decide)

/-- C5 (refuting evaluation): at the concrete violating input
`xvals = yvals = [0, 1]`, `order = 3` (too few points), polyfit's assert
fails and the process aborts; the violation is not surfaced as a
recoverable error. -/
theorem polyfit_violation_aborts_concrete :
    polyfitRun (fun _ _ _ => []) [0, 1] [0, 1] 3 = .aborted := by
  simp [polyfitRun, polyfitAssert]

/-- C5 (amended): whenever the precondition
`len(xs) = len(ys) ∧ 1 ≤ order ∧ order ≤ len(xs) − 1` is violated, the
polyfit assertions fail and the process aborts (C `assert` calls
`abort`); no recoverable error value is produced. -/
theorem polyfit_precondition_violation_aborts
    (lsSolve : List ℝ → List ℝ → ℤ → List ℝ) (xvals yvals : List ℝ) (order : ℤ)
    (h : ¬(xvals.length = yvals.length ∧ 1 ≤ order ∧
            order ≤ (xvals.length : ℤ) - 1)) :
    polyfitRun lsSolve xvals yvals order = .aborted := by
  unfold polyfitRun
  have hfalse : polyfitAssert xvals.length yvals.length order = false := by
    cases hb : polyfitAssert xvals.length yvals.length order
    · rfl
    · exfalso
      apply h
      unfold polyfitAssert at hb
      simp only [Bool.and_eq_true, beq_iff_eq, decide_eq_true_eq] at hb
      exact ⟨hb.1.1, hb.1.2, hb.2⟩
  rw [hfalse]
  simp

/-- C5 witness: mismatched lengths (2 vs 3) violate the precondition and
the run aborts. -/
theorem polyfit_precondition_violation_aborts_witness :
    polyfitRun (fun _ _ _ => []) [0, 1] [0, 1, 2] 3 = .aborted :=
  polyfit_precondition_violation_aborts _ _ _ _ (by decide)

/- Helper: an index returned by rfindSubIdx carries a match of the
pattern. -/

lemma rfindSubIdx_isPrefixOf {pat s : Str} {i : ℕ}
    (h : rfindSubIdx pat s = some i) : pat.isPrefixOf (s.drop i) = true := by
  unfold rfindSubIdx at h
  have hmem := List.mem_of_getLast?_eq_some h
  have := (List.mem_filter.mp hmem).2
  simpa [substrAt] using this

/-- C9 (refuting evaluation): on the input `"}]x["` — no `"null"`, a `'['`
present at index 3, the last `"}]"` at index 0 — `hasData` returns `"["`
(the `size_t` wraparound in `b2 - b1 + 2` clamps `substr` to the whole
suffix), while the claimed behaviour — the substring from the first `'['`
through that `"}]"` inclusive — yields the empty string. -/
theorem hasData_wraparound_cex :
    hasData (Char.ofNat 125 :: [']', 'x', '[']) = ['['] ∧
    claimedHasData (Char.ofNat 125 :: [']', 'x', '[']) = [] := by
  constructor <;> decide

/-- C9 (amended): for inputs shorter than 2^64, `hasData` returns the
empty string whenever the input contains `"null"`; otherwise, when a
first `'['` (index `b1`) and a last `"}]"` (index `b2`) are both present
and the `"}]"` starts at or after the `'['`, it returns the substring
from the first `'['` through that `"}]"` inclusive. -/
theorem hasData_behavior_amended (s : Str) (hlen : s.length < 2 ^ 64) :
    ((findSubIdx nullPat s).isSome → hasData s = []) ∧
    (∀ b1 b2 : ℕ, findSubIdx nullPat s = none →
      s.findIdx? (fun c => c == '[') = some b1 →
      rfindSubIdx closePat s = some b2 → b1 ≤ b2 →
      hasData s = (s.drop b1).take (b2 + 2 - b1)) := by
  constructor
  · intro hs
    unfold hasData
    cases hfn : findSubIdx nullPat s with
    | some i => rfl
    | none => rw [hfn] at hs; exact absurd hs (by simp)
  · intro b1 b2 hnull hb1 hb2 hle
    unfold hasData
    rw [hnull, hb1, hb2]
    dsimp only
    have hp := rfindSubIdx_isPrefixOf hb2
    have hfit : b2 + 2 ≤ s.length := by
      have hpre := (List.isPrefixOf_iff_prefix.mp hp).length_le
      simp only [closePat, List.length_cons, List.length_singleton,
        List.length_drop] at hpre
      omega
    have hval : ((b2 : ℤ) - (b1 : ℤ) + 2) % 2 ^ 64 = (b2 : ℤ) - (b1 : ℤ) + 2 := by
      apply Int.emod_eq_of_lt
      · omega
      · have : (s.length : ℤ) < 2 ^ 64 := by exact_mod_cast hlen
        omega
    rw [hval]
    have htn : ((b2 : ℤ) - (b1 : ℤ) + 2).toNat = b2 + 2 - b1 := by omega
    rw [htn]
    unfold cppSubstr
    have hmin : min (b2 + 2 - b1) (s.length - b1) = b2 + 2 - b1 := by omega
    rw [hmin]

/-- C9 witness: on `"[}]"` the amended description applies with `b1 = 0`,
`b2 = 1` and returns the whole payload. -/
theorem hasData_behavior_amended_witness :
    hasData ['[', Char.ofNat 125, ']'] =
      ((['[', Char.ofNat 125, ']'] : Str).drop 0).take 3 :=
  (hasData_behavior_amended ['[', Char.ofNat 125, ']'] (by norm_num)).2 0 1
    (by decide) (by decide) (by decide) (by decide)

/- Helper lemmas for the polynomial-fit round trip. -/

lemma designRow_eq_pow (x : ℚ) : ∀ i : ℕ, designRow x i = x ^ i
  | 0 => by simp [designRow]
  | i + 1 => by rw [designRow, designRow_eq_pow x i, pow_succ]

lemma designMatrix_apply {m : ℕ} (xs : Fin m → ℚ) (order : ℕ) (j : Fin m)
    (i : Fin (order + 1)) : designMatrix xs order j i = xs j ^ (i : ℕ) := by
  unfold designMatrix
  rw [Matrix.of_apply, designRow_eq_pow]

lemma polyeval_ofFn {n : ℕ} (p : Fin n → ℚ) (x : ℚ) :
    polyeval (List.ofFn p) x = ∑ i : Fin n, p i * x ^ (i : ℕ) := by
  rw [polyeval_eq_sum, List.length_ofFn, Finset.sum_range]
  apply Finset.sum_congr rfl
  intro i _
  congr 1
  rw [List.getD_eq_getElem?_getD, List.getElem?_ofFn]
  simp [List.ofFnNthVal, i.isLt]

lemma sqError_nonneg {m n : ℕ} (A : Matrix (Fin m) (Fin n) ℚ) (y : Fin m → ℚ)
    (c : Fin n → ℚ) : 0 ≤ sqError A y c :=
  Finset.sum_nonneg fun _ _ => sq_nonneg _

lemma design_dotProduct {m : ℕ} (xs : Fin m → ℚ) (p : Fin 4 → ℚ) (j : Fin m) :
    ∑ i, designMatrix xs 3 j i * p i = polyeval (List.ofFn p) (xs j) := by
  rw [polyeval_ofFn]
  apply Finset.sum_congr rfl
  intro i _
  rw [designMatrix_apply, mul_comm]

lemma sqError_self_zero {m : ℕ} (xs : Fin m → ℚ) (p : Fin 4 → ℚ) :
    sqError (designMatrix xs 3) (fun j => polyeval (List.ofFn p) (xs j)) p = 0 := by
  unfold sqError
  apply Finset.sum_eq_zero
  intro j _
  rw [design_dotProduct]
  ring

/-- C7: over exact rational arithmetic, fitting a degree-3 polynomial to
`m ≥ 4` points with pairwise-distinct abscissas whose ordinates come from
evaluating a known degree-3 polynomial `p` recovers exactly the
coefficients of `p`: the least-squares characterisation of the QR solve
over the code's Vandermonde design matrix is satisfied by `c` iff
`c = p`. -/
theorem polyfit_roundtrip_recovers {m : ℕ} (hm : 4 ≤ m) (xs : Fin m → ℚ)
    (hinj : Function.Injective xs) (p c : Fin 4 → ℚ) :
    IsLeastSquares (designMatrix xs 3)
      (fun j => polyeval (List.ofFn p) (xs j)) c ↔ c = p := by
  constructor
  · intro hLS
    have hle := hLS p
    rw [sqError_self_zero] at hle
    have hc0 : sqError (designMatrix xs 3)
        (fun j => polyeval (List.ofFn p) (xs j)) c = 0 :=
      le_antisymm hle (sqError_nonneg _ _ _)
    have hterm : ∀ j ∈ (Finset.univ : Finset (Fin m)),
        (∑ i, designMatrix xs 3 j i * c i - polyeval (List.ofFn p) (xs j)) ^ 2 = 0 := by
      rw [sqError] at hc0
      exact (Finset.sum_eq_zero_iff_of_nonneg fun j _ => sq_nonneg _).mp hc0
    have hrow : ∀ j : Fin m, ∑ i : Fin 4, (c i - p i) * xs j ^ (i : ℕ) = 0 := by
      intro j
      have h2 := hterm j (Finset.mem_univ j)
      have h3 := sq_eq_zero_iff.mp h2
      rw [← design_dotProduct xs p j] at h3
      calc ∑ i : Fin 4, (c i - p i) * xs j ^ (i : ℕ)
          = ∑ i : Fin 4, (designMatrix xs 3 j i * c i - designMatrix xs 3 j i * p i) := by
            apply Finset.sum_congr rfl
            intro i _
            rw [designMatrix_apply]
            ring
        _ = (∑ i, designMatrix xs 3 j i * c i) - ∑ i, designMatrix xs 3 j i * p i :=
            Finset.sum_sub_distrib
        _ = 0 := by linarith [h3]
    have hcast : Function.Injective fun j : Fin 4 => xs (Fin.castLE hm j) :=
      hinj.comp (Fin.castLE_injective hm)
    have hzero := Matrix.eq_zero_of_forall_index_sum_mul_pow_eq_zero hcast
      fun j => hrow (Fin.castLE hm j)
    funext i
    have := congrFun hzero i
    simpa [sub_eq_zero] using this
  · rintro rfl
    intro c'
    rw [sqError_self_zero]
    exact sqError_nonneg _ _ _

/-- C7 witness: sampling the polynomial `1 + 2x + 3x² + 4x³` at the four
distinct abscissas `0, 1, 2, 3` and fitting recovers its coefficients. -/
theorem polyfit_roundtrip_recovers_witness :
    IsLeastSquares (designMatrix (![0, 1, 2, 3] : Fin 4 → ℚ) 3)
      (fun j => polyeval (List.ofFn (![1, 2, 3, 4] : Fin 4 → ℚ))
        ((![0, 1, 2, 3] : Fin 4 → ℚ) j))
      ![1, 2, 3, 4] :=
  (polyfit_roundtrip_recovers (by norm_num) ![0, 1, 2, 3] (by decide)
    ![1, 2, 3, 4] ![1, 2, 3, 4]).mpr rfl
